import Mathlib

/-!
Verification of the flareon database migration subsystem.

The definitions below are a shallow embedding of:
- src/flareon/src/db/migrations.rs (schema operations, operation builders,
  migration records, the migration engine and its applied-migrations ledger);
- src/flareon-cli/src/migration_generator.rs (the migration diff generator);
- src/flareon-codegen/src/model.rs (the model/field descriptions the diff
  generator works on).

The database is modelled as an explicit state: the ledger of applied
migrations (list of (app, name) pairs, in insertion order) together with a
trace of the schema operations executed by the current engine run.  Code
paths that panic in Rust are modelled with Option (none = panic).
-/

namespace Flareon

namespace Str

/-- Lexicographic strict order on char lists, by code point: the order
Rust uses on strings (byte order equals code-point order on ASCII). -/
def charListLt : List Char → List Char → Bool
  | _, [] => false
  | [], _ :: _ => true
  | a :: as, b :: bs =>
    if a.val.toNat < b.val.toNat then true
    else if b.val.toNat < a.val.toNat then false
    else charListLt as bs

/-- Strict lexicographic order on strings. -/
def lt (a b : String) : Bool := charListLt a.data b.data

/-- Total lexicographic order on strings, as the negation of the strict
order the other way around. -/
def le (a b : String) : Bool := !(lt b a)

/-- The proposition form of le, used with the sorting lemmas. -/
def leProp (a b : String) : Prop := le a b = true

instance : DecidableRel leProp := fun a b => instDecidableEqBool (le a b) true

/-- Rust str::split on a single char: splits at every occurrence of the
separator, keeping empty segments. -/
def splitCharAux (sep : Char) : List Char → List Char → List (List Char)
  | [], acc => [acc.reverse]
  | c :: rest, acc =>
    if c = sep then acc.reverse :: splitCharAux sep rest []
    else splitCharAux sep rest (c :: acc)

/-- Rust str::split(sep) for a char separator. -/
def splitChar (sep : Char) (s : String) : List String :=
  (splitCharAux sep s.data []).map String.mk

end Str

namespace Migrations

/-- The logical column type enum, from the From impl for the sea_query
column types in src/flareon/src/db/migrations.rs (lines 626-648). -/
inductive ColumnType where
  | boolean
  | tinyInteger
  | smallInteger
  | integer
  | bigInteger
  | tinyUnsignedInteger
  | smallUnsignedInteger
  | unsignedInteger
  | bigUnsignedInteger
  | float
  | double
  | time
  | date
  | dateTime
  | dateTimeWithTimeZone
  | text
  | blob
  | string (len : Nat)
  deriving DecidableEq

/-- A column definition, from struct Field in migrations.rs (lines 333-348).
Identifiers are modelled as strings. -/
structure Field where
  name : String
  ty : ColumnType
  primary_key : Bool
  auto_value : Bool
  null : Bool
  unique : Bool
  deriving DecidableEq

/-- Field::new (migrations.rs lines 352-361): all flags start false. -/
def Field.new (name : String) (ty : ColumnType) : Field :=
  { name := name, ty := ty, primary_key := false, auto_value := false,
    null := false, unique := false }

/-- Field::primary_key() (migrations.rs lines 364-367). -/
def Field.set_primary_key (f : Field) : Field := { f with primary_key := true }

/-- Field::auto() (migrations.rs lines 370-373). -/
def Field.auto (f : Field) : Field := { f with auto_value := true }

/-- Field::set_null(value) (migrations.rs lines 382-385). -/
def Field.set_null (f : Field) (value : Bool) : Field := { f with null := value }

/-- Field::unique() (migrations.rs lines 388-391). -/
def Field.set_unique (f : Field) : Field := { f with unique := true }

/-- A schema operation, from enum OperationInner in migrations.rs
(lines 318-331): create a table, or add a column to an existing table. -/
inductive Operation where
  | createModel (table_name : String) (fields : List Field) (if_not_exists : Bool)
  | addField (table_name : String) (field : Field)
  deriving DecidableEq

/-- Builder for a CreateModel operation, from struct CreateModelBuilder
(migrations.rs lines 428-433). -/
structure CreateModelBuilder where
  table_name : Option String
  fields : Option (List Field)
  if_not_exists : Bool
  deriving DecidableEq

/-- CreateModelBuilder::new (migrations.rs lines 443-449). -/
def CreateModelBuilder.new : CreateModelBuilder :=
  { table_name := none, fields := none, if_not_exists := false }

/-- CreateModelBuilder::table_name (migrations.rs lines 452-455). -/
def CreateModelBuilder.set_table_name (b : CreateModelBuilder) (t : String) :
    CreateModelBuilder :=
  { b with table_name := some t }

/-- CreateModelBuilder::fields (migrations.rs lines 458-461). -/
def CreateModelBuilder.set_fields (b : CreateModelBuilder) (fs : List Field) :
    CreateModelBuilder :=
  { b with fields := some fs }

/-- CreateModelBuilder::if_not_exists (migrations.rs lines 464-467). -/
def CreateModelBuilder.set_if_not_exists (b : CreateModelBuilder) :
    CreateModelBuilder :=
  { b with if_not_exists := true }

/-- CreateModelBuilder::build (migrations.rs lines 470-477).  The
unwrap_builder_option macro (lines 419-426) panics when a required
parameter was never set; the panic is modelled by none. -/
def CreateModelBuilder.build (b : CreateModelBuilder) : Option Operation :=
  match b.table_name with
  | none => none
  | some t =>
    match b.fields with
    | none => none
    | some fs => some (Operation.createModel t fs b.if_not_exists)

/-- Builder for an AddField operation, from struct AddFieldBuilder
(migrations.rs lines 479-483). -/
structure AddFieldBuilder where
  table_name : Option String
  field : Option Field
  deriving DecidableEq

/-- AddFieldBuilder::new (migrations.rs lines 493-498). -/
def AddFieldBuilder.new : AddFieldBuilder :=
  { table_name := none, field := none }

/-- AddFieldBuilder::table_name (migrations.rs lines 501-504). -/
def AddFieldBuilder.set_table_name (b : AddFieldBuilder) (t : String) :
    AddFieldBuilder :=
  { b with table_name := some t }

/-- AddFieldBuilder::field (migrations.rs lines 507-510). -/
def AddFieldBuilder.set_field (b : AddFieldBuilder) (f : Field) :
    AddFieldBuilder :=
  { b with field := some f }

/-- AddFieldBuilder::build (migrations.rs lines 513-519); panic on a
missing required parameter is modelled by none. -/
def AddFieldBuilder.build (b : AddFieldBuilder) : Option Operation :=
  match b.table_name with
  | none => none
  | some t =>
    match b.field with
    | none => none
    | some f => some (Operation.addField t f)

/-- A migration dependency, from enum MigrationDependencyInner
(migrations.rs lines 659-669). -/
inductive MigrationDependency where
  | migration (app : String) (migration : String)
  | model (app : String) (model_name : String)
  deriving DecidableEq

/-- A migration record: the data exposed by the DynMigration trait
(migrations.rs lines 528-533). -/
structure Migration where
  app_name : String
  name : String
  dependencies : List MigrationDependency
  operations : List Operation
  deriving DecidableEq

/-- Modelled from the spec: DatabaseField::TYPE constants (the db module
root that holds the DatabaseField impls is not under src/).  The spec's
Ledger schema gives: id auto-increment integer, app/name string, applied
timestamp with timezone. -/
def i32_TYPE : ColumnType := ColumnType.integer

/-- Modelled from the spec: logical column type of String columns (the
DatabaseField impl for String is not under src/; the spec calls the
app/name Ledger columns plain strings). -/
def string_TYPE : ColumnType := ColumnType.text

/-- Modelled from the spec: logical column type of
chrono::DateTime(FixedOffset) (timestamp with timezone per the spec). -/
def dateTimeFixedOffset_TYPE : ColumnType := ColumnType.dateTimeWithTimeZone

/-- The bootstrap operation CREATE_APPLIED_MIGRATIONS_MIGRATION
(migrations.rs lines 706-720), written as the operation the builder chain
produces; the correspondence with the builder chain is proved below. -/
def CREATE_APPLIED_MIGRATIONS_MIGRATION : Operation :=
  Operation.createModel "flareon__migrations"
    [ ((Field.new "id" i32_TYPE).set_primary_key).auto,
      Field.new "app" string_TYPE,
      Field.new "name" string_TYPE,
      Field.new "applied" dateTimeFixedOffset_TYPE ]
    true

/-- The database state visible to the migration engine: the ledger of
applied migrations as (app, name) rows in insertion order, plus the trace
of schema operations executed by the current run, in execution order. -/
structure RunState where
  ledger : List (String × String)
  actions : List Operation
  deriving DecidableEq

/-- Operation::forwards (migrations.rs lines 237-262): executes the
schema DDL; modelled as appending the operation to the execution trace. -/
def Operation.forwards (op : Operation) (st : RunState) : RunState :=
  { st with actions := st.actions ++ [op] }

/-- MigrationEngine::is_migration_applied (migrations.rs lines 130-140):
a ledger row with this migration's (app, name) exists. -/
def is_migration_applied (ledger : List (String × String)) (m : Migration) : Bool :=
  ledger.any fun r => decide (r = (m.app_name, m.name))

/-- MigrationEngine::mark_migration_applied (migrations.rs lines 142-155):
inserts one ledger row for the migration. -/
def mark_migration_applied (st : RunState) (m : Migration) : RunState :=
  { st with ledger := st.ledger ++ [(m.app_name, m.name)] }

/-- The inner loop of MigrationEngine::run (migrations.rs lines 107-124):
for each operation, the applied-check runs, and when it fails the
operation is executed and the migration immediately marked applied. -/
def runOps (m : Migration) : List Operation → RunState → RunState
  | [], st => st
  | op :: rest, st =>
    if is_migration_applied st.ledger m then runOps m rest st
    else runOps m rest (mark_migration_applied (op.forwards st) m)

/-- The outer loop of MigrationEngine::run (migrations.rs lines 106-125). -/
def runMigs : List Migration → RunState → RunState
  | [], st => st
  | m :: rest, st => runMigs rest (runOps m m.operations st)

/-- MigrationEngine::run (migrations.rs lines 99-128): first executes the
bootstrap ledger-creation operation, then loops over the (already sorted)
migrations.  The action trace records the operations of this run only. -/
def MigrationEngine.run (migs : List Migration) (ledger : List (String × String)) :
    RunState :=
  runMigs migs
    (CREATE_APPLIED_MIGRATIONS_MIGRATION.forwards { ledger := ledger, actions := [] })

/-- The (module, name) identity pair of a migration. -/
def migKey (m : Migration) : String × String := (m.app_name, m.name)

/-- Whether an operation creates the given table/model. -/
def createsTable (model_name : String) : Operation → Bool
  | Operation.createModel t _ _ => t == model_name
  | Operation.addField _ _ => false

/-- Modelled from the spec: dependency resolution of the Dependency
Sorter (src/flareon/src/db/migrations/sorter.rs is not under src/).  An
OnMigration dependency names its target (module, name) directly; an
OnModel dependency resolves to the earliest migration, in current
traversal order, of the named module containing a create-table operation
for the named model. -/
def resolveDep (all : List Migration) : MigrationDependency → Option (String × String)
  | MigrationDependency.migration app mig => some (app, mig)
  | MigrationDependency.model app model_name =>
    (all.find? fun m =>
      m.app_name == app && m.operations.any (createsTable model_name)).map migKey

/-- Modelled from the spec: a migration is ready when every dependency
resolves and its target is already emitted. -/
def isReady (all : List Migration) (emitted : List (String × String))
    (m : Migration) : Bool :=
  m.dependencies.all fun d =>
    match resolveDep all d with
    | some k => emitted.any fun x => decide (x = k)
    | none => false

/-- Lexicographic (module, name) order used for deterministic
tie-breaking, per the spec. -/
def lexLt (a b : String × String) : Bool :=
  Str.charListLt a.1.data b.1.data ||
    (a.1 == b.1 && Str.charListLt a.2.data b.2.data)

/-- The lexicographically smallest candidate. -/
def pickMin : List Migration → Option Migration
  | [] => none
  | c :: cs =>
    some (cs.foldl (fun best x => if lexLt (migKey x) (migKey best) then x else best) c)

/-- Modelled from the spec: the loop of the Dependency Sorter.  At each
step the migration with no unresolved dependencies and the
lexicographically smallest (module, name) is emitted; when none is ready
and migrations remain, the sort fails (cycle or unresolved dependency).
Fuel bounds the number of steps; sort_migrations passes the input length,
which suffices since each step removes one migration. -/
def sort_migrations_aux (all : List Migration) :
    Nat → List Migration → List Migration → Option (List Migration)
  | 0, acc, remaining => if remaining.isEmpty then some acc.reverse else none
  | Nat.succ fuel, acc, remaining =>
    match remaining with
    | [] => some acc.reverse
    | _ :: _ =>
      match pickMin (remaining.filter (isReady all (acc.map migKey))) with
      | none => none
      | some m => sort_migrations_aux all fuel (m :: acc) (remaining.erase m)

/-- Modelled from the spec: MigrationEngine::sort_migrations
(migrations.rs lines 45-50); the MigrationSorter it delegates to is not
under src/.  Returns the application-safe order, or none on a cycle or an
unresolved dependency. -/
def sort_migrations (migs : List Migration) : Option (List Migration) :=
  sort_migrations_aux migs migs.length [] migs

/-- An application-safe order: every entry's resolved dependencies are
satisfied by a strictly earlier entry. -/
def TopoOk (all : List Migration) (l : List Migration) : Prop :=
  ∀ (j : Nat) (B : Migration), l[j]? = some B →
    ∀ d ∈ B.dependencies, ∀ k, resolveDep all d = some k →
      ∃ (i : Nat) (A : Migration), i < j ∧ l[i]? = some A ∧ migKey A = k

end Migrations

namespace Codegen

/-- Model type, from enum ModelType in src/flareon-codegen/src/model.rs
(lines 15-21). -/
inductive ModelType where
  | application
  | migration
  | internal
  deriving DecidableEq

/-- From enum MaybeUnknown in model.rs (lines 293-300). -/
inductive MaybeUnknown (α : Type) where
  | determined (val : α)
  | unknown
  deriving DecidableEq

/-- From struct ForeignKeySpec in model.rs (lines 322-325); the syn type
is modelled as an opaque string. -/
structure ForeignKeySpec where
  ty : String
  deriving DecidableEq

/-- From struct Field in model.rs (lines 273-289); syn idents and types
are modelled as strings. -/
structure Field where
  field_name : String
  column_name : String
  ty : String
  auto_value : MaybeUnknown Bool
  primary_key : Bool
  foreign_key : MaybeUnknown (Option ForeignKeySpec)
  unique : Bool
  deriving DecidableEq

/-- From struct Model in model.rs (lines 256-264). -/
structure Model where
  name : String
  original_name : String
  model_type : ModelType
  table_name : String
  pk_field : Field
  fields : List Field
  deriving DecidableEq

end Codegen

namespace Cli

/-- From struct ModelInSource in
src/flareon-cli/src/migration_generator.rs (lines 609-613); the
syn::ItemStruct is modelled as an opaque string. -/
structure ModelInSource where
  model_item : String
  model : Codegen.Model
  deriving DecidableEq

/-- From enum DynDependency in migration_generator.rs (lines 725-729). -/
inductive DynDependency where
  | migration (app : String) (migration : String)
  | model (app : String) (model_name : String)
  deriving DecidableEq

/-- From enum DynOperation in migration_generator.rs (lines 752-762). -/
inductive DynOperation where
  | createModel (table_name : String) (fields : List Codegen.Field)
  | addField (table_name : String) (field : Codegen.Field)
  deriving DecidableEq

/-- One step of insertion sort with the lexicographic string order. -/
def orderedInsertStr (x : String) : List String → List String
  | [] => [x]
  | y :: ys => if Str.le x y then x :: y :: ys else y :: orderedInsertStr x ys

/-- Rust Vec::sort() on strings, modelled as insertion sort: on any input
it produces the unique sorted arrangement of the elements, which is all
generate_operations relies on. -/
def sortStrings : List String → List String
  | [] => []
  | x :: xs => orderedInsertStr x (sortStrings xs)

/-- A HashMap keyed by table name, built by repeated insert in list
order: the lookup finds the last insert with the key, modelled by
filtering and taking the last match. -/
def mapLookup (models : List ModelInSource) (name : String) : Option ModelInSource :=
  (models.filter fun m => m.model.table_name == name).getLast?

/-- The sorted, duplicate-free list of all table names of both inputs:
the HashSet all_model_names plus the sort in
MigrationGenerator::generate_operations (lines 256-268). -/
def all_model_names (app_models migration_models : List ModelInSource) : List String :=
  sortStrings
    (((app_models.map fun m => m.model.table_name) ++
      (migration_models.map fun m => m.model.table_name)).dedup)

/-- The per-table field map of make_alter_model_operations, same
last-insert-wins reading as mapLookup. -/
def fieldLookup (fields : List Codegen.Field) (name : String) : Option Codegen.Field :=
  (fields.filter fun f => f.column_name == name).getLast?

/-- The sorted, duplicate-free list of all column names of both field
lists (migration_generator.rs lines 310-323). -/
def all_field_names (app_fields migration_fields : List Codegen.Field) : List String :=
  sortStrings
    (((app_fields.map Codegen.Field.column_name) ++
      (migration_fields.map Codegen.Field.column_name)).dedup)

/-- MigrationGenerator::make_create_model_operation (lines 297-302). -/
def make_create_model_operation (app_model : ModelInSource) : DynOperation :=
  DynOperation.createModel app_model.model.table_name app_model.model.fields

/-- MigrationGenerator::make_add_field_operation (lines 357-362). -/
def make_add_field_operation (app_model : ModelInSource) (field : Codegen.Field) :
    DynOperation :=
  DynOperation.addField app_model.model.table_name field

/-- MigrationGenerator::make_alter_field_operation (lines 365-376):
equal fields produce no operation; a changed field hits todo!(), i.e.
panics, modelled by the outer none. -/
def make_alter_field_operation (app_field migration_field : Codegen.Field) :
    Option (Option DynOperation) :=
  if app_field = migration_field then some none else none

/-- The field loop of MigrationGenerator::make_alter_model_operations
(lines 325-351): a field only in the declaration yields AddField; a field
in both goes through make_alter_field_operation; a field only in the
migration history hits make_remove_field_operation, which is todo!()
(panic, modelled by none). -/
def alterFields (app_model migration_model : ModelInSource) :
    List String → Option (List DynOperation)
  | [] => some []
  | n :: rest =>
    match fieldLookup app_model.model.fields n,
          fieldLookup migration_model.model.fields n with
    | some f, none =>
      match alterFields app_model migration_model rest with
      | some ops => some (make_add_field_operation app_model f :: ops)
      | none => none
    | some f, some g =>
      match make_alter_field_operation f g with
      | none => none
      | some op? =>
        match alterFields app_model migration_model rest with
        | some ops => some (op?.toList ++ ops)
        | none => none
    | none, some _ => none
    | none, none => none

/-- MigrationGenerator::make_alter_model_operations (lines 305-354). -/
def make_alter_model_operations (app_model migration_model : ModelInSource) :
    Option (List DynOperation) :=
  alterFields app_model migration_model
    (all_field_names app_model.model.fields migration_model.model.fields)

/-- One iteration of the table loop of
MigrationGenerator::generate_operations (lines 270-291): a model only in
the declarations yields CreateModel (and is recorded as modified); a
model in both with any difference goes through
make_alter_model_operations; a model only in the migration history hits
make_remove_model_operation, which is todo!() (panic, modelled by
none). -/
def processName (app_models migration_models : List ModelInSource) (name : String) :
    Option (List ModelInSource × List DynOperation) :=
  match mapLookup app_models name, mapLookup migration_models name with
  | some am, none => some ([am], [make_create_model_operation am])
  | some am, some mm =>
    if am.model = mm.model then some ([], [])
    else
      match make_alter_model_operations am mm with
      | some ops => some ([am], ops)
      | none => none
  | none, some _ => none
  | none, none => none

/-- The table loop of MigrationGenerator::generate_operations, collecting
modified models and operations in table-name order. -/
def genForNames (app_models migration_models : List ModelInSource) :
    List String → Option (List ModelInSource × List DynOperation)
  | [] => some ([], [])
  | n :: rest =>
    match processName app_models migration_models n,
          genForNames app_models migration_models rest with
    | some (ms, ops), some (ms2, ops2) => some (ms ++ ms2, ops ++ ops2)
    | _, _ => none

/-- MigrationGenerator::generate_operations (lines 248-294); none models
a panic in one of the unimplemented-diff branches. -/
def generate_operations (app_models migration_models : List ModelInSource) :
    Option (List ModelInSource × List DynOperation) :=
  genForNames app_models migration_models (all_model_names app_models migration_models)

/-- From struct Migration in migration_generator.rs (lines 696-701): a
migration reconstructed from an existing migration source file. -/
structure Migration where
  app_name : String
  name : String
  models : List ModelInSource
  deriving DecidableEq

/-- Rust str::parse::(u32): optional leading plus sign, then at least one
ASCII digit, and the value must fit in 32 bits. -/
def parseU32 (s : String) : Option Nat :=
  let ds := match s.data with
    | '+' :: rest => rest
    | cs => cs
  if ds.isEmpty then none
  else if ds.all Char.isDigit then
    let v := ds.foldl (fun acc c => acc * 10 + (c.toNat - 48)) 0
    if v < 4294967296 then some v else none
  else none

/-- The format of the {:04} specifier: decimal, zero-padded on the left
to at least four characters. -/
def format04 (n : Nat) : String :=
  let s := toString n
  if s.length < 4 then String.mk (List.replicate (4 - s.length) '0') ++ s else s

/-- MigrationProcessor::next_migration_name (migration_generator.rs lines
571-592).  The migrations list is the sorted history; the timestamp of
chrono::Utc::now is a parameter.  The increment wraps like release-mode
u32 arithmetic. -/
def next_migration_name (migrations : List Migration) (date_time : String) :
    Except String String :=
  match migrations.getLast? with
  | none => Except.ok "m_0001_initial"
  | some last =>
    match (Str.splitChar '_' last.name)[1]? with
    | none => Except.error ("migration number not found: " ++ last.name)
    | some seg =>
      match parseU32 seg with
      | none => Except.error ("unable to parse migration number: " ++ last.name)
      | some last_migration_number =>
        let migration_number := (last_migration_number + 1) % 4294967296
        Except.ok ("m_" ++ format04 migration_number ++ "_auto_" ++ date_time)

/-- MigrationProcessor::base_dependencies (migration_generator.rs lines
596-607): one dependency on the last sorted migration, or none at all
when the history is empty. -/
def base_dependencies (migrations : List Migration) : List DynDependency :=
  match migrations.getLast? with
  | none => []
  | some last => [DynDependency.migration last.app_name last.name]

end Cli

namespace Examples

open Migrations Codegen Cli

/-- A concrete schema operation. -/
def op_t1 : Operation := Operation.createModel "t1" [] false

/-- A second concrete schema operation. -/
def op_t2 : Operation := Operation.createModel "t2" [] false

/-- A not-yet-applied migration with two operations. -/
def two_op_migration : Migrations.Migration :=
  { app_name := "app", name := "m_0001_initial", dependencies := [],
    operations := [op_t1, op_t2] }

/-- A migration that creates the model table app__model. -/
def mig_a : Migrations.Migration :=
  { app_name := "app", name := "m_0001_initial", dependencies := [],
    operations := [Operation.createModel "app__model" [] false] }

/-- A migration depending on mig_a by name. -/
def mig_b : Migrations.Migration :=
  { app_name := "app", name := "m_0002_b",
    dependencies := [MigrationDependency.migration "app" "m_0001_initial"],
    operations := [] }

/-- An id column of a declared model. -/
def idF : Codegen.Field :=
  { field_name := "id", column_name := "id", ty := "i32",
    auto_value := MaybeUnknown.determined true, primary_key := true,
    foreign_key := MaybeUnknown.determined none, unique := false }

/-- A plain column named a. -/
def aF : Codegen.Field :=
  { field_name := "a", column_name := "a", ty := "String",
    auto_value := MaybeUnknown.determined false, primary_key := false,
    foreign_key := MaybeUnknown.determined none, unique := false }

/-- A plain column named b. -/
def bF : Codegen.Field :=
  { field_name := "b", column_name := "b", ty := "String",
    auto_value := MaybeUnknown.determined false, primary_key := false,
    foreign_key := MaybeUnknown.determined none, unique := false }

/-- The declared model M with the given fields, table name m. -/
def mdl (fs : List Codegen.Field) : Codegen.Model :=
  { name := "M", original_name := "M", model_type := ModelType.application,
    table_name := "m", pk_field := idF, fields := fs }

/-- The model as found in a source file. -/
def mis (fs : List Codegen.Field) : ModelInSource :=
  { model_item := "src", model := mdl fs }

/-- A second declared model, with table name m2. -/
def mdl2 : Codegen.Model :=
  { name := "N", original_name := "N", model_type := ModelType.application,
    table_name := "m2", pk_field := idF, fields := [idF] }

/-- The second model as found in a source file. -/
def mis2 : ModelInSource := { model_item := "src2", model := mdl2 }

/-- A processed migration whose name carries sequence number 0003. -/
def cli_mig_0003 : Cli.Migration :=
  { app_name := "app1", name := "m_0003_foo", models := [] }

/-- A processed migration whose name has no second underscore segment. -/
def cli_mig_noseq : Cli.Migration :=
  { app_name := "app1", name := "initial", models := [] }

end Examples

end Flareon

namespace Flareon

open Migrations

theorem char_eq_of_toNat_eq {a b : Char} (h : a.val.toNat = b.val.toNat) : a = b := by
  apply Char.ext
  exact UInt32.ext h

theorem charListLt_asymm (as : List Char) : ∀ bs, Str.charListLt as bs = true →
    Str.charListLt bs as = false := by
  induction as with
  | nil =>
    intro bs h
    cases bs with
    | nil => simp [Str.charListLt] at h
    | cons b bs => simp [Str.charListLt]
  | cons a as ih =>
    intro bs h
    cases bs with
    | nil => simp [Str.charListLt] at h
    | cons b bs =>
      simp only [Str.charListLt] at h ⊢
      by_cases hab : a.val.toNat < b.val.toNat
      · have hba : ¬ b.val.toNat < a.val.toNat := Nat.lt_asymm hab
        simp [hab, hba]
      · by_cases hba : b.val.toNat < a.val.toNat
        · simp [hab, hba] at h
        · simp only [hab, hba, if_false] at h ⊢
          exact ih bs h

theorem charListLt_eq_of_not (as : List Char) : ∀ bs, Str.charListLt as bs = false →
    Str.charListLt bs as = false → as = bs := by
  induction as with
  | nil =>
    intro bs h1 _
    cases bs with
    | nil => rfl
    | cons b bs => simp [Str.charListLt] at h1
  | cons a as ih =>
    intro bs h1 h2
    cases bs with
    | nil => simp [Str.charListLt] at h2
    | cons b bs =>
      simp only [Str.charListLt] at h1 h2
      by_cases hab : a.val.toNat < b.val.toNat
      · simp [hab] at h1
      · by_cases hba : b.val.toNat < a.val.toNat
        · simp [hab, hba] at h2
        · have hv : a.val.toNat = b.val.toNat :=
            Nat.le_antisymm (Nat.le_of_not_lt hba) (Nat.le_of_not_lt hab)
          have hc : a = b := char_eq_of_toNat_eq hv
          subst hc
          simp only [hab, hba, if_false] at h1 h2
          rw [ih bs h1 h2]

theorem charListLt_trans (as : List Char) : ∀ bs cs, Str.charListLt as bs = true →
    Str.charListLt bs cs = true → Str.charListLt as cs = true := by
  induction as with
  | nil =>
    intro bs cs h1 h2
    cases cs with
    | nil => cases bs <;> simp [Str.charListLt] at h2
    | cons c cs => simp [Str.charListLt]
  | cons a as ih =>
    intro bs cs h1 h2
    cases bs with
    | nil => simp [Str.charListLt] at h1
    | cons b bs =>
      cases cs with
      | nil => simp [Str.charListLt] at h2
      | cons c cs =>
        simp only [Str.charListLt] at h1 h2 ⊢
        by_cases hab : a.val.toNat < b.val.toNat
        · by_cases hbc : b.val.toNat < c.val.toNat
          · simp [Nat.lt_trans hab hbc]
          · by_cases hcb : c.val.toNat < b.val.toNat
            · simp [hbc, hcb] at h2
            · have hv : b.val.toNat = c.val.toNat :=
                Nat.le_antisymm (Nat.le_of_not_lt hcb) (Nat.le_of_not_lt hbc)
              simp [hv ▸ hab]
        · by_cases hba : b.val.toNat < a.val.toNat
          · simp [hab, hba] at h1
          · have hv : a.val.toNat = b.val.toNat :=
              Nat.le_antisymm (Nat.le_of_not_lt hba) (Nat.le_of_not_lt hab)
            simp only [hab, hba, if_false] at h1
            by_cases hbc : b.val.toNat < c.val.toNat
            · simp [hv ▸ hbc]
            · by_cases hcb : c.val.toNat < b.val.toNat
              · simp [hbc, hcb] at h2
              · simp only [hbc, hcb, if_false] at h2
                have hac : ¬ a.val.toNat < c.val.toNat := by
                  rw [hv]; exact hbc
                have hca : ¬ c.val.toNat < a.val.toNat := by
                  rw [hv]; exact hcb
                simp only [hac, hca, if_false]
                exact ih bs cs h1 h2

theorem string_eq_of_data_eq {a b : String} (h : a.data = b.data) : a = b := by
  cases a
  cases b
  simp only at h
  rw [h]

instance : IsTotal String Str.leProp := by
  refine ⟨fun a b => ?_⟩
  by_cases h : Str.charListLt b.data a.data = true
  · right
    have := charListLt_asymm b.data a.data h
    simp [Str.leProp, Str.le, Str.lt, this]
  · left
    simp only [Str.leProp, Str.le, Str.lt]
    simp only [Bool.not_eq_true] at h
    simp [h]

instance : IsTrans String Str.leProp := by
  refine ⟨fun a b c hab hbc => ?_⟩
  simp only [Str.leProp, Str.le, Str.lt, Bool.not_eq_true'] at hab hbc ⊢
  by_cases hca : Str.charListLt c.data a.data = true
  · by_cases hab2 : Str.charListLt a.data b.data = true
    · have hcb := charListLt_trans c.data a.data b.data hca hab2
      rw [hcb] at hbc
      cases hbc
    · simp only [Bool.not_eq_true] at hab2
      have heq : a.data = b.data := charListLt_eq_of_not a.data b.data hab2 hab
      rw [heq] at hca
      rw [hca] at hbc
      cases hbc
  · simpa using hca

instance : IsAntisymm String Str.leProp := by
  refine ⟨fun a b hab hba => ?_⟩
  simp only [Str.leProp, Str.le, Str.lt, Bool.not_eq_true'] at hab hba
  exact string_eq_of_data_eq (charListLt_eq_of_not a.data b.data hba hab)

/-- If the migration is already recorded, the inner loop executes nothing
and leaves the state untouched. -/
theorem runOps_of_applied (m : Migration) (ops : List Operation) (st : RunState)
    (h : is_migration_applied st.ledger m = true) : runOps m ops st = st := by
  induction ops with
  | nil => rfl
  | cons op rest ih => simp [runOps, h, ih]

/-- Once a migration's ledger row is present, it stays present: the inner
loop only appends to the ledger. -/
theorem runOps_ledger_extends (m : Migration) (ops : List Operation) (st : RunState) :
    ∃ e, (runOps m ops st).ledger = st.ledger ++ e := by
  induction ops generalizing st with
  | nil => exact ⟨[], by simp [runOps]⟩
  | cons op rest ih =>
    by_cases h : is_migration_applied st.ledger m = true
    · simpa [runOps, h] using ih st
    · obtain ⟨e, he⟩ := ih (mark_migration_applied (op.forwards st) m)
      refine ⟨(m.app_name, m.name) :: e, ?_⟩
      simp only [runOps]
      rw [if_neg h, he]
      simp [mark_migration_applied, Operation.forwards]

theorem runMigs_ledger_extends (migs : List Migration) (st : RunState) :
    ∃ e, (runMigs migs st).ledger = st.ledger ++ e := by
  induction migs generalizing st with
  | nil => exact ⟨[], by simp [runMigs]⟩
  | cons m rest ih =>
    obtain ⟨e1, he1⟩ := runOps_ledger_extends m m.operations st
    obtain ⟨e2, he2⟩ := ih (runOps m m.operations st)
    exact ⟨e1 ++ e2, by simp [runMigs, he2, he1]⟩

theorem is_migration_applied_append (l e : List (String × String)) (m : Migration)
    (h : is_migration_applied l m = true) :
    is_migration_applied (l ++ e) m = true := by
  simp only [is_migration_applied, List.any_eq_true] at h ⊢
  obtain ⟨r, hr, hd⟩ := h
  exact ⟨r, List.mem_append_left _ hr, hd⟩

/-- After the inner loop of a migration with at least one operation, the
migration's ledger row is present. -/
theorem runOps_marks_applied (m : Migration) (op : Operation) (rest : List Operation)
    (st : RunState) :
    is_migration_applied (runOps m (op :: rest) st).ledger m = true := by
  by_cases h : is_migration_applied st.ledger m = true
  · rw [runOps_of_applied m (op :: rest) st h]; exact h
  · have hmark : is_migration_applied
        (mark_migration_applied (op.forwards st) m).ledger m = true := by
      simp [mark_migration_applied, Operation.forwards, is_migration_applied]
    simp only [runOps]
    rw [if_neg h, runOps_of_applied m rest _ hmark]
    exact hmark

/-- After the outer loop, every migration of the list that has at least
one operation is recorded in the ledger. -/
theorem runMigs_marks_applied (migs : List Migration) (st : RunState) (m : Migration)
    (hm : m ∈ migs) :
    m.operations = [] ∨ is_migration_applied (runMigs migs st).ledger m = true := by
  induction migs generalizing st with
  | nil => cases hm
  | cons m0 rest ih =>
    rcases List.mem_cons.mp hm with heq | hmem
    · subst heq
      cases hops : m.operations with
      | nil => exact Or.inl rfl
      | cons op ops =>
        refine Or.inr ?_
        obtain ⟨e, he⟩ := runMigs_ledger_extends rest (runOps m m.operations st)
        rw [runMigs, he]
        exact is_migration_applied_append _ _ _
          (by rw [hops]; exact runOps_marks_applied m op ops st)
    · exact ih (runOps m0 m0.operations st) hmem

/-- If every migration of the list is either empty or already recorded,
the outer loop leaves the state untouched. -/
theorem runMigs_of_all_applied (migs : List Migration) (st : RunState)
    (h : ∀ m ∈ migs, m.operations = [] ∨ is_migration_applied st.ledger m = true) :
    runMigs migs st = st := by
  induction migs with
  | nil => rfl
  | cons m0 rest ih =>
    have hstep : runOps m0 m0.operations st = st := by
      rcases h m0 (List.mem_cons_self m0 rest) with hops | happ
      · rw [hops]; rfl
      · exact runOps_of_applied m0 m0.operations st happ
    rw [runMigs, hstep]
    exact ih fun m hm => h m (List.mem_cons_of_mem _ hm)

/-- The action trace only grows, so the first action of a run is the
first action recorded before the loops. -/
theorem runOps_actions_extends (m : Migration) (ops : List Operation) (st : RunState) :
    ∃ e, (runOps m ops st).actions = st.actions ++ e := by
  induction ops generalizing st with
  | nil => exact ⟨[], by simp [runOps]⟩
  | cons op rest ih =>
    by_cases h : is_migration_applied st.ledger m = true
    · simpa [runOps, h] using ih st
    · obtain ⟨e, he⟩ := ih (mark_migration_applied (op.forwards st) m)
      refine ⟨op :: e, ?_⟩
      simp only [runOps]
      rw [if_neg h, he]
      simp [mark_migration_applied, Operation.forwards]

theorem runMigs_actions_extends (migs : List Migration) (st : RunState) :
    ∃ e, (runMigs migs st).actions = st.actions ++ e := by
  induction migs generalizing st with
  | nil => exact ⟨[], by simp [runMigs]⟩
  | cons m rest ih =>
    obtain ⟨e1, he1⟩ := runOps_actions_extends m m.operations st
    obtain ⟨e2, he2⟩ := ih (runOps m m.operations st)
    exact ⟨e1 ++ e2, by simp [runMigs, he2, he1]⟩

/-- C1 (evidence of the code bug): a not-yet-applied migration declaring
two operations is only partially executed by MigrationEngine::run.  The
run executes the bootstrap and the first operation only, yet inserts the
migration's ledger row; the second declared operation is never executed,
contradicting the claim that every operation of the migration is executed
before its ledger row is written. -/
theorem run_writes_ledger_before_all_operations :
    (MigrationEngine.run [Examples.two_op_migration] []).actions
        = [CREATE_APPLIED_MIGRATIONS_MIGRATION, Examples.op_t1] ∧
    (MigrationEngine.run [Examples.two_op_migration] []).ledger
        = [("app", "m_0001_initial")] ∧
    Examples.two_op_migration.operations = [Examples.op_t1, Examples.op_t2] ∧
    Examples.op_t2 ∉ (MigrationEngine.run [Examples.two_op_migration] []).actions := by
  refine ⟨by decide, by decide, by decide, by decide⟩

/-- C2: running the engine a second time against the resulting database
with the same migration set executes zero schema operations beyond the
if-not-exists bootstrap and inserts no new ledger rows: the ledger is
exactly the one left by the first run. -/
theorem run_idempotent (migs : List Migration) (ledger : List (String × String)) :
    (MigrationEngine.run migs (MigrationEngine.run migs ledger).ledger).ledger
        = (MigrationEngine.run migs ledger).ledger ∧
    (MigrationEngine.run migs (MigrationEngine.run migs ledger).ledger).actions
        = [CREATE_APPLIED_MIGRATIONS_MIGRATION] := by
  have hnoop : runMigs migs
      { ledger := (MigrationEngine.run migs ledger).ledger,
        actions := [CREATE_APPLIED_MIGRATIONS_MIGRATION] } =
      { ledger := (MigrationEngine.run migs ledger).ledger,
        actions := [CREATE_APPLIED_MIGRATIONS_MIGRATION] } := by
    apply runMigs_of_all_applied
    intro m hm
    have h := runMigs_marks_applied migs
      (CREATE_APPLIED_MIGRATIONS_MIGRATION.forwards { ledger := ledger, actions := [] })
      m hm
    simpa [MigrationEngine.run] using h
  have hrun2 : MigrationEngine.run migs (MigrationEngine.run migs ledger).ledger =
      { ledger := (MigrationEngine.run migs ledger).ledger,
        actions := [CREATE_APPLIED_MIGRATIONS_MIGRATION] } := by
    unfold MigrationEngine.run
    simpa [Operation.forwards] using hnoop
  rw [hrun2]
  exact ⟨rfl, rfl⟩

/-- C4: the first database action of every MigrationEngine::run is the
bootstrap creation of the ledger table: a create-table with if-not-exists
semantics for flareon__migrations with columns id (auto-increment integer
primary key), app (string), name (string) and applied (timestamp with
timezone); and the constant is exactly what the builder chain of
migrations.rs lines 706-720 produces. -/
theorem run_bootstrap_first (migs : List Migration) (ledger : List (String × String)) :
    (MigrationEngine.run migs ledger).actions[0]?
        = some CREATE_APPLIED_MIGRATIONS_MIGRATION ∧
    CREATE_APPLIED_MIGRATIONS_MIGRATION =
      Operation.createModel "flareon__migrations"
        [ { name := "id", ty := ColumnType.integer, primary_key := true,
            auto_value := true, null := false, unique := false },
          { name := "app", ty := ColumnType.text, primary_key := false,
            auto_value := false, null := false, unique := false },
          { name := "name", ty := ColumnType.text, primary_key := false,
            auto_value := false, null := false, unique := false },
          { name := "applied", ty := ColumnType.dateTimeWithTimeZone,
            primary_key := false, auto_value := false, null := false,
            unique := false } ]
        true ∧
    ((((CreateModelBuilder.new).set_table_name "flareon__migrations").set_fields
        [ ((Field.new "id" i32_TYPE).set_primary_key).auto,
          Field.new "app" string_TYPE,
          Field.new "name" string_TYPE,
          Field.new "applied" dateTimeFixedOffset_TYPE ]).set_if_not_exists).build
      = some CREATE_APPLIED_MIGRATIONS_MIGRATION := by
  obtain ⟨e, he⟩ := runMigs_actions_extends migs
    (CREATE_APPLIED_MIGRATIONS_MIGRATION.forwards { ledger := ledger, actions := [] })
  refine ⟨?_, by decide, by decide⟩
  unfold MigrationEngine.run
  rw [he]
  simp [Operation.forwards]

/-- C9: CreateModelBuilder::build and AddFieldBuilder::build panic
exactly when a required parameter (table_name, fields, field) was never
set, and return the corresponding operation without panicking when every
required parameter has been set. -/
theorem builders_build_panic_iff (b : CreateModelBuilder) (b2 : AddFieldBuilder)
    (t : String) (fs : List Field) (i : Bool) (f : Field) :
    (b.build = none ↔ b.table_name = none ∨ b.fields = none) ∧
    (b2.build = none ↔ b2.table_name = none ∨ b2.field = none) ∧
    CreateModelBuilder.build
        { table_name := some t, fields := some fs, if_not_exists := i }
      = some (Operation.createModel t fs i) ∧
    AddFieldBuilder.build { table_name := some t, field := some f }
      = some (Operation.addField t f) := by
  obtain ⟨tn, fls, ine⟩ := b
  obtain ⟨tn2, fl2⟩ := b2
  refine ⟨?_, ?_, rfl, rfl⟩
  · cases tn <;> cases fls <;> simp [CreateModelBuilder.build]
  · cases tn2 <;> cases fl2 <;> simp [AddFieldBuilder.build]

/-- C5: with no migration history, a declared model with fields id, a
yields exactly one CreateModel operation with the fields in declared
order; with history holding that model, a declaration that adds field b
yields exactly one AddField operation, for b only. -/
theorem generator_create_then_add :
    Cli.generate_operations [Examples.mis [Examples.idF, Examples.aF]] []
      = some ([Examples.mis [Examples.idF, Examples.aF]],
              [Cli.DynOperation.createModel "m" [Examples.idF, Examples.aF]]) ∧
    Cli.generate_operations [Examples.mis [Examples.idF, Examples.aF, Examples.bF]]
        [Examples.mis [Examples.idF, Examples.aF]]
      = some ([Examples.mis [Examples.idF, Examples.aF, Examples.bF]],
              [Cli.DynOperation.addField "m" Examples.bF]) := by
  refine ⟨by decide, by decide⟩

/-- C7: migration naming is sequential: an empty history gives
m_0001_initial with no dependencies; a history ending in m_0003_foo gives
sequence number 0004 (name m_0004_auto_ followed by the timestamp) and
exactly one dependency, on that last migration. -/
theorem naming_sequential :
    (∀ dt, Cli.next_migration_name [] dt = Except.ok "m_0001_initial") ∧
    Cli.base_dependencies [] = [] ∧
    (∀ (migs : List Cli.Migration) (last : Cli.Migration) (dt : String),
      migs.getLast? = some last → last.name = "m_0003_foo" →
      Cli.next_migration_name migs dt = Except.ok ("m_0004_auto_" ++ dt) ∧
      Cli.base_dependencies migs =
        [Cli.DynDependency.migration last.app_name "m_0003_foo"]) := by
  refine ⟨fun dt => rfl, rfl, ?_⟩
  intro migs last dt hlast hname
  constructor
  · simp only [Cli.next_migration_name, hlast]
    rw [hname]
    rfl
  · simp only [Cli.base_dependencies, hlast]
    rw [hname]

theorem naming_sequential_witness :
    ([Examples.cli_mig_0003].getLast? = some Examples.cli_mig_0003) ∧
    Examples.cli_mig_0003.name = "m_0003_foo" ∧
    (Cli.next_migration_name [Examples.cli_mig_0003] "20240101_000000"
        = Except.ok ("m_0004_auto_" ++ "20240101_000000") ∧
      Cli.base_dependencies [Examples.cli_mig_0003]
        = [Cli.DynDependency.migration Examples.cli_mig_0003.app_name "m_0003_foo"]) :=
  ⟨rfl, rfl,
    naming_sequential.2.2 [Examples.cli_mig_0003] Examples.cli_mig_0003
      "20240101_000000" rfl rfl⟩

/-- C10: for a non-empty history, next_migration_name returns a name
exactly when the second underscore-separated segment of the last sorted
migration's name parses as a u32, and an error value (a total, non-panic
result) otherwise. -/
theorem next_migration_name_ok_iff (migs : List Cli.Migration)
    (last : Cli.Migration) (dt : String) (h : migs.getLast? = some last) :
    (Cli.next_migration_name migs dt).isOk = true ↔
      ∃ seg, (Str.splitChar '_' last.name)[1]? = some seg ∧
        (Cli.parseU32 seg).isSome = true := by
  simp only [Cli.next_migration_name, h]
  cases hseg : (Str.splitChar '_' last.name)[1]? with
  | none => simp [Except.isOk, Except.toBool, hseg]
  | some seg =>
    cases hp : Cli.parseU32 seg with
    | none => simp [Except.isOk, Except.toBool, hseg, hp]
    | some n => simp [Except.isOk, Except.toBool, hseg, hp]

theorem orderedInsertStr_perm (x : String) (l : List String) :
    (Cli.orderedInsertStr x l).Perm (x :: l) := by
  induction l with
  | nil => exact List.Perm.refl _
  | cons y ys ih =>
    rw [Cli.orderedInsertStr]
    by_cases h : Str.le x y = true
    · rw [if_pos h]
    · rw [if_neg h]
      exact (ih.cons y).trans (List.Perm.swap x y ys)

theorem sortStrings_perm (l : List String) : (Cli.sortStrings l).Perm l := by
  induction l with
  | nil => exact List.Perm.refl _
  | cons x xs ih =>
    simp only [Cli.sortStrings]
    exact (orderedInsertStr_perm x (Cli.sortStrings xs)).trans (ih.cons x)

theorem mem_orderedInsertStr {z x : String} {l : List String}
    (h : z ∈ Cli.orderedInsertStr x l) : z = x ∨ z ∈ l :=
  List.mem_cons.mp ((orderedInsertStr_perm x l).subset h)

theorem sorted_orderedInsertStr (x : String) (l : List String)
    (hl : List.Sorted Str.leProp l) :
    List.Sorted Str.leProp (Cli.orderedInsertStr x l) := by
  induction l with
  | nil => simp [Cli.orderedInsertStr]
  | cons y ys ih =>
    rw [List.sorted_cons] at hl
    obtain ⟨hy, hys⟩ := hl
    rw [Cli.orderedInsertStr]
    by_cases h : Str.le x y = true
    · rw [if_pos h, List.sorted_cons]
      refine ⟨?_, List.sorted_cons.mpr ⟨hy, hys⟩⟩
      intro b hb
      rcases List.mem_cons.mp hb with rfl | hb2
      · exact h
      · exact IsTrans.trans x y b h (hy b hb2)
    · rw [if_neg h, List.sorted_cons]
      refine ⟨?_, ih hys⟩
      intro b hb
      rcases mem_orderedInsertStr hb with rfl | hb2
      · exact (total_of Str.leProp b y).resolve_left h
      · exact hy b hb2

theorem sortStrings_sorted (l : List String) :
    List.Sorted Str.leProp (Cli.sortStrings l) := by
  induction l with
  | nil => simp [Cli.sortStrings]
  | cons x xs ih =>
    simp only [Cli.sortStrings]
    exact sorted_orderedInsertStr x _ ih

theorem sortStrings_eq_of_perm (l l2 : List String) (p : l.Perm l2) :
    Cli.sortStrings l = Cli.sortStrings l2 :=
  List.eq_of_perm_of_sorted
    ((sortStrings_perm l).trans (p.trans (sortStrings_perm l2).symm))
    (sortStrings_sorted l) (sortStrings_sorted l2)

theorem perm_eq_of_length_le_one {α : Type} {l1 l2 : List α} (p : l1.Perm l2)
    (h : l1.length ≤ 1) : l1 = l2 := by
  cases l1 with
  | nil => exact p.nil_eq
  | cons a t =>
    cases t with
    | nil => exact (List.perm_singleton.mp p.symm).symm
    | cons b t2 => simp at h

theorem filter_key_length_le_one (l : List Cli.ModelInSource) (n : String)
    (h : (l.map fun m => m.model.table_name).Nodup) :
    (l.filter fun m => m.model.table_name == n).length ≤ 1 := by
  induction l with
  | nil => simp
  | cons m rest ih =>
    simp only [List.map_cons, List.nodup_cons] at h
    obtain ⟨hnotin, hrest⟩ := h
    rw [List.filter_cons]
    by_cases hm : (m.model.table_name == n) = true
    · rw [if_pos hm]
      have hnil : rest.filter (fun m2 => m2.model.table_name == n) = [] := by
        rw [List.filter_eq_nil_iff]
        intro x hx hpx
        apply hnotin
        have hxn : x.model.table_name = n := by simpa using hpx
        have hmn : m.model.table_name = n := by simpa using hm
        rw [hmn, ← hxn]
        exact List.mem_map_of_mem _ hx
      rw [hnil]
      simp
    · rw [if_neg hm]
      exact ih hrest

theorem mapLookup_perm (l l2 : List Cli.ModelInSource)
    (h : (l.map fun m => m.model.table_name).Nodup) (p : l.Perm l2) (n : String) :
    Cli.mapLookup l n = Cli.mapLookup l2 n := by
  unfold Cli.mapLookup
  rw [perm_eq_of_length_le_one (p.filter _) (filter_key_length_le_one l n h)]

theorem all_model_names_perm (app app2 mig mig2 : List Cli.ModelInSource)
    (pa : app.Perm app2) (pm : mig.Perm mig2) :
    Cli.all_model_names app mig = Cli.all_model_names app2 mig2 := by
  unfold Cli.all_model_names
  exact sortStrings_eq_of_perm _ _ (((pa.map _).append (pm.map _)).dedup)

theorem genForNames_congr (app app2 mig mig2 : List Cli.ModelInSource)
    (hA : ∀ n, Cli.mapLookup app n = Cli.mapLookup app2 n)
    (hM : ∀ n, Cli.mapLookup mig n = Cli.mapLookup mig2 n) (names : List String) :
    Cli.genForNames app mig names = Cli.genForNames app2 mig2 names := by
  induction names with
  | nil => rfl
  | cons n rest ih =>
    have hp : Cli.processName app mig n = Cli.processName app2 mig2 n := by
      unfold Cli.processName
      rw [hA n, hM n]
    simp only [Cli.genForNames, ih, hp]

theorem foldl_lexmin_mem (cs : List Migration) (c : Migration) :
    cs.foldl (fun best x => if lexLt (migKey x) (migKey best) then x else best) c
      ∈ c :: cs := by
  induction cs generalizing c with
  | nil => exact List.mem_cons_self _ _
  | cons x xs ih =>
    rw [List.foldl_cons]
    have h2 := ih (if lexLt (migKey x) (migKey c) then x else c)
    rcases List.mem_cons.mp h2 with heq | hmem
    · by_cases hx : lexLt (migKey x) (migKey c) = true
      · rw [heq, if_pos hx]
        exact List.mem_cons_of_mem _ (List.mem_cons_self _ _)
      · rw [heq, if_neg hx]
        exact List.mem_cons_self _ _
    · exact List.mem_cons_of_mem _ (List.mem_cons_of_mem _ hmem)

theorem pickMin_mem (cands : List Migration) (m : Migration)
    (h : pickMin cands = some m) : m ∈ cands := by
  cases cands with
  | nil => cases h
  | cons c cs =>
    simp only [pickMin, Option.some.injEq] at h
    rw [← h]
    exact foldl_lexmin_mem cs c

theorem isReady_spec {all : List Migration} {keys : List (String × String)}
    {m : Migration} (h : isReady all keys m = true) {d : MigrationDependency}
    (hd : d ∈ m.dependencies) {k : String × String}
    (hk : resolveDep all d = some k) : k ∈ keys := by
  unfold isReady at h
  rw [List.all_eq_true] at h
  have h2 := h d hd
  simp only [hk] at h2
  rw [List.any_eq_true] at h2
  obtain ⟨x, hx, hxk⟩ := h2
  exact (of_decide_eq_true hxk) ▸ hx

theorem topoOk_append {all : List Migration} {E : List Migration} {m : Migration}
    (hE : TopoOk all E)
    (hm : ∀ d ∈ m.dependencies, ∀ k, resolveDep all d = some k →
      ∃ A, A ∈ E ∧ migKey A = k) :
    TopoOk all (E ++ [m]) := by
  unfold TopoOk
  intro j B hj d hd k hk
  by_cases hlt : j < E.length
  · rw [List.getElem?_append, if_pos hlt] at hj
    obtain ⟨i, A, hij, hiA, hkey⟩ := hE j B hj d hd k hk
    refine ⟨i, A, hij, ?_, hkey⟩
    rw [List.getElem?_append, if_pos (lt_trans hij hlt)]
    exact hiA
  · by_cases hj2 : j = E.length
    · subst hj2
      rw [List.getElem?_concat_length] at hj
      have hBm : m = B := Option.some.inj hj
      subst hBm
      obtain ⟨A, hA, hkey⟩ := hm d hd k hk
      obtain ⟨i, hi⟩ := List.getElem?_of_mem hA
      have hiE : i < E.length := by
        by_contra hge
        rw [List.getElem?_eq_none (Nat.le_of_not_lt hge)] at hi
        cases hi
      refine ⟨i, A, hiE, ?_, hkey⟩
      rw [List.getElem?_append, if_pos hiE]
      exact hi
    · have hge : (E ++ [m]).length ≤ j := by
        simp only [List.length_append, List.length_singleton]
        omega
      rw [List.getElem?_eq_none hge] at hj
      cases hj

theorem sort_migrations_aux_ok (all : List Migration) (fuel : Nat) :
    ∀ (acc remaining l : List Migration),
    TopoOk all acc.reverse →
    sort_migrations_aux all fuel acc remaining = some l →
    TopoOk all l ∧ l.Perm (acc.reverse ++ remaining) := by
  induction fuel with
  | zero =>
    intro acc remaining l hacc hrun
    cases remaining with
    | nil =>
      simp only [sort_migrations_aux, List.isEmpty_nil, if_true,
        Option.some.injEq] at hrun
      rw [← hrun]
      exact ⟨hacc, by simp⟩
    | cons r rs => simp [sort_migrations_aux] at hrun
  | succ fuel ih =>
    intro acc remaining l hacc hrun
    cases remaining with
    | nil =>
      simp only [sort_migrations_aux, Option.some.injEq] at hrun
      rw [← hrun]
      exact ⟨hacc, by simp⟩
    | cons r rs =>
      cases hpick : pickMin ((r :: rs).filter (isReady all (acc.map migKey))) with
      | none => simp [sort_migrations_aux, hpick] at hrun
      | some m =>
        simp only [sort_migrations_aux, hpick] at hrun
        have hmem := pickMin_mem _ _ hpick
        obtain ⟨hmrem, hmready⟩ := List.mem_filter.mp hmem
        have hacc2 : TopoOk all (m :: acc).reverse := by
          rw [List.reverse_cons]
          apply topoOk_append hacc
          intro d hd k hk
          have hkin : k ∈ acc.map migKey := isReady_spec hmready hd hk
          obtain ⟨A, hA, hkey⟩ := List.mem_map.mp hkin
          exact ⟨A, List.mem_reverse.mpr hA, hkey⟩
        obtain ⟨hok, hperm⟩ := ih (m :: acc) ((r :: rs).erase m) l hacc2 hrun
        refine ⟨hok, ?_⟩
        have h1 : (m :: (r :: rs).erase m).Perm (r :: rs) :=
          (List.perm_cons_erase hmrem).symm
        have h2 : ((m :: acc).reverse ++ (r :: rs).erase m).Perm
            (acc.reverse ++ (r :: rs)) := by
          rw [List.reverse_cons, List.append_assoc]
          exact List.Perm.append_left _ h1
        exact hperm.trans h2

theorem sort_migrations_spec (migs l : List Migration)
    (h : sort_migrations migs = some l) : TopoOk migs l ∧ l.Perm migs := by
  have hempty : TopoOk migs ([] : List Migration).reverse := by
    unfold TopoOk
    intro j B hj
    simp at hj
  obtain ⟨hok, hperm⟩ :=
    sort_migrations_aux_ok migs migs.length [] migs l hempty h
  exact ⟨hok, by simpa using hperm⟩

/-- C3: modelled from the spec (sorter.rs is not under src/): whenever
the sort succeeds and migration A is a dependency of migration B, either
directly through an OnMigration dependency or through an OnModel
dependency resolved to the migration that created the named model, A is
placed strictly before B in the output. -/
theorem sort_migrations_topological (migs l : List Migration)
    (A B : Migration) (d : MigrationDependency)
    (hsort : sort_migrations migs = some l)
    (hB : B ∈ migs) (hd : d ∈ B.dependencies)
    (hres : resolveDep migs d = some (migKey A)) (hA : A ∈ migs)
    (hnodup : (migs.map migKey).Nodup) :
    ∃ (i j : Nat), i < j ∧ l[i]? = some A ∧ l[j]? = some B := by
  obtain ⟨hok, hperm⟩ := sort_migrations_spec migs l hsort
  obtain ⟨j, hj⟩ := List.getElem?_of_mem (hperm.mem_iff.mpr hB)
  obtain ⟨i, A2, hij, hi, hkey⟩ := hok j B hj d hd (migKey A) hres
  have hnodup_l : (l.map migKey).Nodup := ((hperm.map migKey).nodup_iff).mpr hnodup
  have hA2A : A2 = A :=
    List.inj_on_of_nodup_map hnodup_l (List.getElem?_mem hi)
      (hperm.mem_iff.mpr hA) hkey
  rw [hA2A] at hi
  exact ⟨i, j, hij, hi, hj⟩

theorem sort_migrations_topological_witness :
    sort_migrations [Examples.mig_b, Examples.mig_a]
        = some [Examples.mig_a, Examples.mig_b] ∧
    Examples.mig_b ∈ [Examples.mig_b, Examples.mig_a] ∧
    MigrationDependency.migration "app" "m_0001_initial"
        ∈ Examples.mig_b.dependencies ∧
    resolveDep [Examples.mig_b, Examples.mig_a]
        (MigrationDependency.migration "app" "m_0001_initial")
      = some (migKey Examples.mig_a) ∧
    (∃ (i j : Nat), i < j ∧
      ([Examples.mig_a, Examples.mig_b])[i]? = some Examples.mig_a ∧
      ([Examples.mig_a, Examples.mig_b])[j]? = some Examples.mig_b) :=
  ⟨by decide, by decide, by decide, by decide,
    sort_migrations_topological [Examples.mig_b, Examples.mig_a]
      [Examples.mig_a, Examples.mig_b] Examples.mig_a Examples.mig_b
      (MigrationDependency.migration "app" "m_0001_initial")
      (by decide) (by decide) (by decide) (by decide) (by decide) (by decide)⟩

/-- C6: the diff generator is deterministic on identical input: with
distinct table names in each input (as latest_models guarantees),
permuting either input list, i.e. any hash-map iteration order, leaves
the generated output unchanged, because table and field names are sorted
before diffing. -/
theorem generator_deterministic (app app2 mig mig2 : List Cli.ModelInSource)
    (happ : (app.map fun m => m.model.table_name).Nodup)
    (hmig : (mig.map fun m => m.model.table_name).Nodup)
    (pa : app.Perm app2) (pm : mig.Perm mig2) :
    Cli.generate_operations app mig = Cli.generate_operations app2 mig2 := by
  unfold Cli.generate_operations
  rw [all_model_names_perm app app2 mig mig2 pa pm]
  exact genForNames_congr app app2 mig mig2
    (mapLookup_perm app app2 happ pa) (mapLookup_perm mig mig2 hmig pm) _

theorem generator_deterministic_witness :
    ([Examples.mis [Examples.idF], Examples.mis2].map
        fun m => m.model.table_name).Nodup ∧
    (([] : List Cli.ModelInSource).map fun m => m.model.table_name).Nodup ∧
    ([Examples.mis [Examples.idF], Examples.mis2].Perm
        [Examples.mis2, Examples.mis [Examples.idF]]) ∧
    Cli.generate_operations [Examples.mis [Examples.idF], Examples.mis2] [] =
      Cli.generate_operations [Examples.mis2, Examples.mis [Examples.idF]] [] :=
  ⟨by decide, by decide,
    List.Perm.swap Examples.mis2 (Examples.mis [Examples.idF]) [],
    generator_deterministic _ _ _ _ (by decide) (by decide)
      (List.Perm.swap Examples.mis2 (Examples.mis [Examples.idF]) [])
      (List.Perm.refl [])⟩

theorem mapLookup_mem_names (l : List Cli.ModelInSource) (n : String)
    (x : Cli.ModelInSource) (h : Cli.mapLookup l n = some x) :
    n ∈ l.map fun m => m.model.table_name := by
  unfold Cli.mapLookup at h
  obtain ⟨ys, hys⟩ := List.getLast?_eq_some_iff.mp h
  have hx : x ∈ l.filter fun m => m.model.table_name == n := by
    rw [hys]
    exact List.mem_append_right _ (List.mem_singleton_self x)
  obtain ⟨hxl, hcond⟩ := List.mem_filter.mp hx
  have hxn : x.model.table_name = n := by simpa using hcond
  rw [← hxn]
  exact List.mem_map_of_mem _ hxl

theorem mem_all_model_names_of_left {app mig : List Cli.ModelInSource} {n : String}
    {x : Cli.ModelInSource} (h : Cli.mapLookup app n = some x) :
    n ∈ Cli.all_model_names app mig := by
  unfold Cli.all_model_names
  rw [(sortStrings_perm _).mem_iff, List.mem_dedup]
  exact List.mem_append_left _ (mapLookup_mem_names app n x h)

theorem mem_all_model_names_of_right {app mig : List Cli.ModelInSource} {n : String}
    {x : Cli.ModelInSource} (h : Cli.mapLookup mig n = some x) :
    n ∈ Cli.all_model_names app mig := by
  unfold Cli.all_model_names
  rw [(sortStrings_perm _).mem_iff, List.mem_dedup]
  exact List.mem_append_right _ (mapLookup_mem_names mig n x h)

theorem fieldLookup_mem_names (fs : List Codegen.Field) (c : String)
    (g : Codegen.Field) (h : Cli.fieldLookup fs c = some g) :
    c ∈ fs.map Codegen.Field.column_name := by
  unfold Cli.fieldLookup at h
  obtain ⟨ys, hys⟩ := List.getLast?_eq_some_iff.mp h
  have hg : g ∈ fs.filter fun f => f.column_name == c := by
    rw [hys]
    exact List.mem_append_right _ (List.mem_singleton_self g)
  obtain ⟨hgl, hcond⟩ := List.mem_filter.mp hg
  have hgc : g.column_name = c := by simpa using hcond
  rw [← hgc]
  exact List.mem_map_of_mem _ hgl

theorem mem_all_field_names_of_left {a b : List Codegen.Field} {c : String}
    {f : Codegen.Field} (h : Cli.fieldLookup a c = some f) :
    c ∈ Cli.all_field_names a b := by
  unfold Cli.all_field_names
  rw [(sortStrings_perm _).mem_iff, List.mem_dedup]
  exact List.mem_append_left _ (fieldLookup_mem_names a c f h)

theorem mem_all_field_names_of_right {a b : List Codegen.Field} {c : String}
    {g : Codegen.Field} (h : Cli.fieldLookup b c = some g) :
    c ∈ Cli.all_field_names a b := by
  unfold Cli.all_field_names
  rw [(sortStrings_perm _).mem_iff, List.mem_dedup]
  exact List.mem_append_right _ (fieldLookup_mem_names b c g h)

theorem genForNames_eq_none (app mig : List Cli.ModelInSource) (names : List String)
    (n : String) (hn : n ∈ names) (hnone : Cli.processName app mig n = none) :
    Cli.genForNames app mig names = none := by
  induction names with
  | nil => cases hn
  | cons m rest ih =>
    rcases List.mem_cons.mp hn with rfl | hmem
    · simp only [Cli.genForNames, hnone]
    · simp only [Cli.genForNames, ih hmem]
      cases hm : Cli.processName app mig m with
      | none => rfl
      | some p =>
        obtain ⟨ms, ops⟩ := p
        rfl

theorem alterFields_cons_none (am mm : Cli.ModelInSource) (c : String)
    (rest : List String) (h : Cli.alterFields am mm rest = none) :
    Cli.alterFields am mm (c :: rest) = none := by
  cases h1 : Cli.fieldLookup am.model.fields c with
  | none =>
    cases h2 : Cli.fieldLookup mm.model.fields c with
    | none => simp only [Cli.alterFields, h1, h2]
    | some g => simp only [Cli.alterFields, h1, h2]
  | some f =>
    cases h2 : Cli.fieldLookup mm.model.fields c with
    | none => simp only [Cli.alterFields, h1, h2, h]
    | some g =>
      simp only [Cli.alterFields, h1, h2, h]
      cases Cli.make_alter_field_operation f g with
      | none => rfl
      | some op => rfl

theorem alterFields_eq_none_removed (am mm : Cli.ModelInSource) (names : List String)
    (c : String) (g : Codegen.Field) (hc : c ∈ names)
    (h1 : Cli.fieldLookup am.model.fields c = none)
    (h2 : Cli.fieldLookup mm.model.fields c = some g) :
    Cli.alterFields am mm names = none := by
  induction names with
  | nil => cases hc
  | cons m rest ih =>
    rcases List.mem_cons.mp hc with rfl | hmem
    · simp only [Cli.alterFields, h1, h2]
    · exact alterFields_cons_none am mm m rest (ih hmem)

theorem alterFields_eq_none_changed (am mm : Cli.ModelInSource) (names : List String)
    (c : String) (f g : Codegen.Field) (hc : c ∈ names)
    (h1 : Cli.fieldLookup am.model.fields c = some f)
    (h2 : Cli.fieldLookup mm.model.fields c = some g) (hne : f ≠ g) :
    Cli.alterFields am mm names = none := by
  induction names with
  | nil => cases hc
  | cons m rest ih =>
    rcases List.mem_cons.mp hc with rfl | hmem
    · simp only [Cli.alterFields, h1, h2, Cli.make_alter_field_operation, if_neg hne]
    · exact alterFields_cons_none am mm m rest (ih hmem)

theorem processName_none_of_removed_model {app mig : List Cli.ModelInSource}
    {n : String} {mm : Cli.ModelInSource} (h1 : Cli.mapLookup app n = none)
    (h2 : Cli.mapLookup mig n = some mm) :
    Cli.processName app mig n = none := by
  simp only [Cli.processName, h1, h2]

theorem processName_none_of_alter {app mig : List Cli.ModelInSource} {n : String}
    {am mm : Cli.ModelInSource} (h1 : Cli.mapLookup app n = some am)
    (h2 : Cli.mapLookup mig n = some mm) (hne : ¬ am.model = mm.model)
    (halter : Cli.make_alter_model_operations am mm = none) :
    Cli.processName app mig n = none := by
  simp only [Cli.processName, h1, h2, if_neg hne, halter]

/-- C8: the diff generator fails fast, through an unimplemented-operation
panic, whenever a model present in the migration history is absent from
the declarations, a field was removed, or a field's definition changed;
it never returns generated output for such inputs. -/
theorem generator_fails_fast (app mig : List Cli.ModelInSource)
    (h :
      (∃ n mm, Cli.mapLookup app n = none ∧ Cli.mapLookup mig n = some mm) ∨
      (∃ n am mm c g, Cli.mapLookup app n = some am ∧
        Cli.mapLookup mig n = some mm ∧
        Cli.fieldLookup am.model.fields c = none ∧
        Cli.fieldLookup mm.model.fields c = some g) ∨
      (∃ n am mm c f g, Cli.mapLookup app n = some am ∧
        Cli.mapLookup mig n = some mm ∧
        Cli.fieldLookup am.model.fields c = some f ∧
        Cli.fieldLookup mm.model.fields c = some g ∧ f ≠ g)) :
    Cli.generate_operations app mig = none := by
  unfold Cli.generate_operations
  rcases h with ⟨n, mm, h1, h2⟩ | ⟨n, am, mm, c, g, h1, h2, hf1, hf2⟩ |
    ⟨n, am, mm, c, f, g, h1, h2, hf1, hf2, hne⟩
  · exact genForNames_eq_none app mig _ n (mem_all_model_names_of_right h2)
      (processName_none_of_removed_model h1 h2)
  · have hnemod : ¬ am.model = mm.model := by
      intro he
      rw [he] at hf1
      rw [hf1] at hf2
      cases hf2
    have halter : Cli.make_alter_model_operations am mm = none := by
      unfold Cli.make_alter_model_operations
      exact alterFields_eq_none_removed am mm _ c g
        (mem_all_field_names_of_right hf2) hf1 hf2
    exact genForNames_eq_none app mig _ n (mem_all_model_names_of_right h2)
      (processName_none_of_alter h1 h2 hnemod halter)
  · have hnemod : ¬ am.model = mm.model := by
      intro he
      rw [he] at hf1
      rw [hf1] at hf2
      exact hne (Option.some.inj hf2)
    have halter : Cli.make_alter_model_operations am mm = none := by
      unfold Cli.make_alter_model_operations
      exact alterFields_eq_none_changed am mm _ c f g
        (mem_all_field_names_of_left hf1) hf1 hf2 hne
    exact genForNames_eq_none app mig _ n (mem_all_model_names_of_right h2)
      (processName_none_of_alter h1 h2 hnemod halter)

theorem generator_fails_fast_witness :
    ((∃ n mm, Cli.mapLookup ([] : List Cli.ModelInSource) n = none ∧
        Cli.mapLookup [Examples.mis [Examples.idF]] n = some mm) ∨
      (∃ n am mm c g, Cli.mapLookup ([] : List Cli.ModelInSource) n = some am ∧
        Cli.mapLookup [Examples.mis [Examples.idF]] n = some mm ∧
        Cli.fieldLookup am.model.fields c = none ∧
        Cli.fieldLookup mm.model.fields c = some g) ∨
      (∃ n am mm c f g, Cli.mapLookup ([] : List Cli.ModelInSource) n = some am ∧
        Cli.mapLookup [Examples.mis [Examples.idF]] n = some mm ∧
        Cli.fieldLookup am.model.fields c = some f ∧
        Cli.fieldLookup mm.model.fields c = some g ∧ f ≠ g)) ∧
    Cli.generate_operations [] [Examples.mis [Examples.idF]] = none :=
  ⟨Or.inl ⟨"m", Examples.mis [Examples.idF], rfl, by decide⟩,
    generator_fails_fast [] [Examples.mis [Examples.idF]]
      (Or.inl ⟨"m", Examples.mis [Examples.idF], rfl, by decide⟩)⟩

theorem next_migration_name_ok_iff_witness :
    ([Examples.cli_mig_noseq].getLast? = some Examples.cli_mig_noseq) ∧
    ((Cli.next_migration_name [Examples.cli_mig_noseq] "ts").isOk = true ↔
      ∃ seg, (Str.splitChar '_' Examples.cli_mig_noseq.name)[1]? = some seg ∧
        (Cli.parseU32 seg).isSome = true) :=
  ⟨rfl, next_migration_name_ok_iff [Examples.cli_mig_noseq]
    Examples.cli_mig_noseq "ts" rfl⟩

end Flareon
